import Mathlib

/-!
# raft-badger: the log store and stable store over an ordered key-value engine

A shallow embedding of `badger_store.go`.  The embedded engine (badger) is an
external collaborator: its committed contents are a list of key/value pairs in
ascending byte-lexicographic key order, a transaction stages writes that are
applied together by `Commit`, and an iterator walks a snapshot of the keys in
ascending or descending order.  Reads of the engine succeed or report that the
key is absent; `Txn.Set`, `Txn.Delete` and `Txn.Commit` may be refused, which
is kept as a parameter (`Engine`).

Go's `append(prefix[:], x...)` is read as the concatenation `prefix ++ x`
(one call at a time, no sharing of the backing array between calls).
-/

namespace RaftBadger

/-! ## Bytes -/

/-- A byte string; every element stands for one byte (a number below 256). -/
abbrev Bytes := List Nat

/-- Byte-lexicographic strict order on keys, the order in which the engine
keeps and iterates its keys (`bytes.Compare(a, b) < 0`). -/
def bytesLt : Bytes → Bytes → Bool
  | [], [] => false
  | [], _ :: _ => true
  | _ :: _, [] => false
  | a :: as, b :: bs => decide (a < b) || (decide (a = b) && bytesLt as bs)

/-- Whether `s` starts with `pre` (`bytes.HasPrefix(s, pre)`). -/
def hasPrefix : Bytes → Bytes → Bool
  | _, [] => true
  | [], _ :: _ => false
  | a :: s, b :: pre => decide (a = b) && hasPrefix s pre

/-- Two to the 64: the number of values of a `uint64`. -/
def u64 : Nat := 18446744073709551616

/-! ## Package-level variables and helpers -/

/-- The Go value `[]byte("logs")`. -/
def dbLogs : Bytes := [108, 111, 103, 115]

/-- The Go value `[]byte("conf")`. -/
def dbConf : Bytes := [99, 111, 110, 102]

/-- Modelled from the spec: `uint64ToBytes` is not part of `badger_store.go`;
the spec gives it as the fixed-width (8-byte) big-endian encoding of a 64-bit
index. -/
def uint64ToBytes (u : Nat) : Bytes :=
  [u / 72057594037927936 % 256, u / 281474976710656 % 256, u / 1099511627776 % 256,
   u / 4294967296 % 256, u / 16777216 % 256, u / 65536 % 256, u / 256 % 256, u % 256]

/-- Modelled from the spec: `bytesToUint64` is not part of `badger_store.go`;
the spec gives it as the inverse of the fixed-width encoding, failing when the
input is not exactly 8 bytes long.  Its call sites take one `uint64` and no
error value, so the failure is `none`: the call does not return. -/
def bytesToUint64 (b : Bytes) : Option Nat :=
  match b with
  | [b0, b1, b2, b3, b4, b5, b6, b7] =>
    some (b0 * 72057594037927936 + b1 * 281474976710656 + b2 * 1099511627776 +
      b3 * 4294967296 + b4 * 16777216 + b5 * 65536 + b6 * 256 + b7)
  | _ => none

/-- Modelled from the spec: `MIN_LOG_KEY` is not part of `badger_store.go`;
the spec has the ascending scan start at the smallest possible suffix. -/
def MIN_LOG_KEY : Bytes := [0, 0, 0, 0, 0, 0, 0, 0]

/-- Modelled from the spec: `MAX_LOG_KEY` is not part of `badger_store.go`;
the spec has the descending scan start at the largest possible suffix. -/
def MAX_LOG_KEY : Bytes := [255, 255, 255, 255, 255, 255, 255, 255]

/-- The key of a log entry, `append(prefix[:], uint64ToBytes(idx)...)` with
`prefix := dbLogs`, as built in `GetLog`, `StoreLogs` and `DeleteRange`. -/
def logKey (idx : Nat) : Bytes := dbLogs ++ uint64ToBytes idx

/-- The key of a config record, `append(prefix[:], k...)` with
`prefix := dbConf`, as built in `Set` and `Get`. -/
def confKey (k : Bytes) : Bytes := dbConf ++ k

/-! ## Errors, log entries, codec -/

/-- Error values.  The three sentinels are three distinct Go variables. -/
inductive Err where
  /-- This package's `ErrKeyNotFound`, `errors.New("not found")`. -/
  | ErrKeyNotFound
  /-- The engine's `badger.ErrKeyNotFound`. -/
  | badgerErrKeyNotFound
  /-- The consensus library's `raft.ErrLogNotFound`. -/
  | raftErrLogNotFound
  /-- Any other error of the engine, the codec or the operating system. -/
  | other (code : Nat)
  /-- The value of `errors.Wrap(cause, msg)` for a non-nil cause. -/
  | wrap (cause : Err) (msg : String)
  deriving DecidableEq, Repr

/-- A log entry, `raft.Log`; `Kind` stands for its field `Type`. -/
structure Log where
  Index : Nat
  Term : Nat
  Kind : Nat
  Data : Bytes
  deriving DecidableEq, Repr

/-- The entry codec (`encodeMsgPack`, `decodeMsgPack`), an external
collaborator taken as a parameter. -/
structure Codec where
  encodeMsgPack : Log → Except Err Bytes
  decodeMsgPack : Bytes → Except Err Log

/-! ## The engine -/

/-- The committed contents of the engine: key/value pairs, ascending by key. -/
abbrev DB := List (Bytes × Bytes)

/-- A staged write of a transaction: a value to set, or `none` to delete. -/
abbrev Write := Bytes × Option Bytes

/-- The value committed under `key`, if any. -/
def DB.get : DB → Bytes → Option Bytes
  | [], _ => none
  | (k, v) :: rest, key => if k = key then some v else DB.get rest key

/-- Set `key` to `val`, keeping the keys in ascending order. -/
def DB.put : DB → Bytes → Bytes → DB
  | [], key, val => [(key, val)]
  | (k, v) :: rest, key, val =>
    if bytesLt key k then (key, val) :: (k, v) :: rest
    else if key = k then (key, val) :: rest
    else (k, v) :: DB.put rest key val

/-- Remove `key`. -/
def DB.del (db : DB) (key : Bytes) : DB :=
  db.filter (fun kv => decide (kv.1 ≠ key))

/-- The writes the engine may refuse: `Txn.Set` and `Txn.Delete` given the
writes staged so far, and `Txn.Commit` of a non-empty write set. -/
structure Engine where
  setErr : List Write → Bytes → Bytes → Option Err
  deleteErr : List Write → Bytes → Option Err
  commitErr : DB → List Write → Option Err

/-- The contents after the staged writes are applied in order. -/
def applyWrites (db : DB) (pend : List Write) : DB :=
  pend.foldl (fun d w => match w.2 with
    | some v => d.put w.1 v
    | none => d.del w.1) db

/-- The engine call `tx.Commit(nil)`: with nothing staged it returns nil at once;
otherwise all staged writes become visible together, or on an error none
does. -/
def commit (eng : Engine) (db : DB) (pend : List Write) : DB × Option Err :=
  if pend = [] then (db, none)
  else match eng.commitErr db pend with
    | some err => (db, some err)
    | none => (applyWrites db pend, none)

/-- The engine call `tx.Get(key)` in a read-only transaction: the item, or
`badger.ErrKeyNotFound`. -/
def txGet (db : DB) (key : Bytes) : Except Err (Bytes × Bytes) :=
  match db.get key with
  | none => .error Err.badgerErrKeyNotFound
  | some v => .ok (key, v)

/-- The engine call `item.Value()`. -/
def itemValue (item : Bytes × Bytes) : Except Err Bytes := .ok item.2

/-- The items an iterator yields from `it.Seek(key)` on, in iteration order:
forward, the keys not smaller than `key`, ascending; in reverse, the keys not
greater than `key`, descending. -/
def seek (db : DB) (reverse : Bool) (key : Bytes) : List (Bytes × Bytes) :=
  if reverse then db.reverse.filter (fun kv => !bytesLt key kv.1)
  else db.filter (fun kv => !bytesLt kv.1 key)

/-! ## The log store -/

/-- The method `FirstIndex`: the index of the first key of the ascending scan from
`dbLogs ++ MIN_LOG_KEY` when that key has the prefix `dbLogs`, else `0`; the
error is always nil.  The result is `none` when `bytesToUint64` fails. -/
def FirstIndex (db : DB) : Option (Nat × Option Err) :=
  match seek db false (dbLogs ++ MIN_LOG_KEY) with
  | (k, _) :: _ =>
    if hasPrefix k dbLogs then
      (bytesToUint64 (k.drop dbLogs.length)).map (fun n => (n, none))
    else some (0, none)
  | [] => some (0, none)

/-- The method `LastIndex`: as `FirstIndex`, over the descending scan from
`dbLogs ++ MAX_LOG_KEY`. -/
def LastIndex (db : DB) : Option (Nat × Option Err) :=
  match seek db true (dbLogs ++ MAX_LOG_KEY) with
  | (k, _) :: _ =>
    if hasPrefix k dbLogs then
      (bytesToUint64 (k.drop dbLogs.length)).map (fun n => (n, none))
    else some (0, none)
  | [] => some (0, none)

/-- The method `GetLog`: the decoded entry stored under the key of `idx`, or the
error returned. -/
def GetLog (c : Codec) (db : DB) (idx : Nat) : Except Err Log :=
  match txGet db (logKey idx) with
  | .error err =>
    if err = Err.badgerErrKeyNotFound then .error Err.raftErrLogNotFound
    else .error err
  | .ok item =>
    match itemValue item with
    | .error err => .error err
    | .ok val => c.decodeMsgPack val

/-- The loop of `StoreLogs`: encode and stage every entry in order; the first
encode or `tx.Set` error ends it. -/
def stageLogs (eng : Engine) (c : Codec) : List Log → List Write → Except Err (List Write)
  | [], pend => .ok pend
  | log :: rest, pend =>
    match c.encodeMsgPack log with
    | .error err => .error err
    | .ok val =>
      match eng.setErr pend (logKey log.Index) val with
      | some err => .error err
      | none => stageLogs eng c rest (pend ++ [(logKey log.Index, some val)])

/-- The method `StoreLogs`: the contents afterwards and the error returned.  On
an error return the deferred `tx.Discard()` drops whatever was staged. -/
def StoreLogs (eng : Engine) (c : Codec) (db : DB) (logs : List Log) : DB × Option Err :=
  match stageLogs eng c logs [] with
  | .error err => (db, some err)
  | .ok pend => commit eng db pend

/-- The method `StoreLog`. -/
def StoreLog (eng : Engine) (c : Codec) (db : DB) (log : Log) : DB × Option Err :=
  StoreLogs eng c db [log]

/-- The loop of `DeleteRange` over the items the iterator yields: it ends when
the key lacks the prefix `dbLogs` or its index exceeds `max`; otherwise the key
is staged for deletion.  The result is `none` when `bytesToUint64` fails. -/
def deleteLoop (eng : Engine) (max : Nat) :
    List (Bytes × Bytes) → List Write → Option (Except Err (List Write))
  | [], pend => some (.ok pend)
  | (k, _) :: rest, pend =>
    if hasPrefix k dbLogs then
      match bytesToUint64 (k.drop dbLogs.length) with
      | none => none
      | some idx =>
        if idx > max then some (.ok pend)
        else
          match eng.deleteErr pend k with
          | some err => some (.error err)
          | none => deleteLoop eng max rest (pend ++ [(k, none)])
    else some (.ok pend)

/-- The method `DeleteRange`: the contents afterwards and the error returned;
`none` when `bytesToUint64` fails. -/
def DeleteRange (eng : Engine) (db : DB) (min max : Nat) : Option (DB × Option Err) :=
  match deleteLoop eng max (seek db false (logKey min)) [] with
  | none => none
  | some (.error err) => some (db, some err)
  | some (.ok pend) => some (commit eng db pend)

/-! ## The stable store -/

/-- The method `Set`. -/
def Set (eng : Engine) (db : DB) (k v : Bytes) : DB × Option Err :=
  match eng.setErr [] (confKey k) v with
  | some err => (db, some err)
  | none => commit eng db [(confKey k, some v)]

/-- The method `Get`: the value, or the error returned (with a nil value). -/
def Get (db : DB) (k : Bytes) : Except Err Bytes :=
  match txGet db (confKey k) with
  | .error err =>
    if err = Err.badgerErrKeyNotFound then .error Err.ErrKeyNotFound
    else .error err
  | .ok item =>
    match itemValue item with
    | .error err => .error err
    | .ok val => .ok val

/-- The method `SetUint64`. -/
def SetUint64 (eng : Engine) (db : DB) (key : Bytes) (val : Nat) : DB × Option Err :=
  Set eng db key (uint64ToBytes val)

/-- The method `GetUint64`: the error of `Get` when there is one, else the number
decoded with a nil error; `none` when `bytesToUint64` fails. -/
def GetUint64 (db : DB) (key : Bytes) : Option (Except Err Nat) :=
  match Get db key with
  | .error err => some (.error err)
  | .ok val => (bytesToUint64 val).map (fun n => .ok n)

/-! ## Opening a store -/

/-- The fields of `badger.Options` that `New` reads. -/
structure Options where
  Dir : String
  ValueDir : String
  deriving DecidableEq, Repr

/-- The type `BadgerStore`: the engine connection (nil-able) and the path. -/
structure BadgerStore where
  conn : Option DB
  path : String
  deriving DecidableEq, Repr

/-- What the engine and the operating system answer to the calls of `New`:
`badger.Open(opts)` and `os.MkdirAll(dir, 0700)`. -/
structure Env where
  badgerOpen : Options → Option DB × Option Err
  mkdirAll : String → Option Err

/-- The Go call `errors.Wrap(err, msg)` for a non-nil `err`. -/
def errorsWrap (err : Err) (msg : String) : Err := Err.wrap err msg

/-- The function `New`.  The second `if` runs `os.MkdirAll(opts.ValueDir, 0700)`
as a statement, dropping its result, and tests the `err` of `badger.Open`. -/
def New (env : Env) (opts : Options) : Option BadgerStore × Option Err :=
  let (db, err) := env.badgerOpen opts
  match env.mkdirAll opts.Dir with
  | some err1 => (none, some (errorsWrap err1 "create Dir failed"))
  | none =>
    let _dropped := env.mkdirAll opts.ValueDir
    match err with
    | some e => (none, some (errorsWrap e "create ValueDir failed"))
    | none =>
      match err with
      | some e => (none, some e)
      | none => (some { conn := db, path := opts.Dir }, none)

/-- The function `NewBadgerStore`. -/
def NewBadgerStore (env : Env) (path : String) : Option BadgerStore × Option Err :=
  New env { Dir := path, ValueDir := path }

/-! ## Runs of the store -/

/-- A call that writes to the store. -/
inductive Op where
  | storeLogs (logs : List Log)
  | deleteRange (min max : Nat)
  | set (k v : Bytes)

/-- The contents after one call (unchanged when the call fails). -/
def step (eng : Engine) (c : Codec) (db : DB) : Op → DB
  | .storeLogs logs => (StoreLogs eng c db logs).1
  | .deleteRange min max =>
    match DeleteRange eng db min max with
    | some r => r.1
    | none => db
  | .set k v => (Set eng db k v).1

/-- The contents after a sequence of calls. -/
def run (eng : Engine) (c : Codec) (db : DB) (ops : List Op) : DB :=
  ops.foldl (step eng c) db

/-- Whether some `Set` on key `k` returned nil during the run of `ops` from `db`. -/
def everSet (eng : Engine) (c : Codec) (k : Bytes) : DB → List Op → Bool
  | _, [] => false
  | db, op :: ops =>
    (match op with
      | .set k1 v => decide (k1 = k) && (Set eng db k1 v).2.isNone
      | _ => false) || everSet eng c k (step eng c db op) ops

/-- Whether a log entry is stored at index `i`. -/
def stored (db : DB) (i : Nat) : Bool := (db.get (logKey i)).isSome

/-! ## Sample engine and codec, for concrete runs -/

/-- An engine that accepts every write. -/
def okEngine : Engine :=
  { setErr := fun _ _ _ => none, deleteErr := fun _ _ => none, commitErr := fun _ _ => none }

/-- A sample reversible codec: index, term and kind as 8 big-endian bytes each,
then the data. -/
def sampleCodec : Codec :=
  { encodeMsgPack := fun l =>
      .ok (uint64ToBytes l.Index ++ uint64ToBytes l.Term ++ uint64ToBytes l.Kind ++ l.Data)
    decodeMsgPack := fun b =>
      match bytesToUint64 (b.take 8), bytesToUint64 ((b.drop 8).take 8),
          bytesToUint64 ((b.drop 16).take 8) with
      | some i, some t, some k => .ok { Index := i, Term := t, Kind := k, Data := b.drop 24 }
      | _, _, _ => .error (Err.other 1) }

/-- The sample codec, except that encoding an entry of kind 9 fails. -/
def pickyCodec : Codec :=
  { encodeMsgPack := fun l =>
      if l.Kind = 9 then .error (Err.other 2) else sampleCodec.encodeMsgPack l
    decodeMsgPack := sampleCodec.decodeMsgPack }

/-- An environment in which the engine opens and `os.MkdirAll` fails on the one
directory `/data/values`. -/
def valueDirFails : Env :=
  { badgerOpen := fun _ => (some [], none)
    mkdirAll := fun d => if d = "/data/values" then some (Err.other 13) else none }

/-- A sample entry at index `i`. -/
def sampleLog (i : Nat) : Log := { Index := i, Term := 1, Kind := 0, Data := [i] }

/-! ## The invariant of the contents -/

/-- The keys are strictly ascending. -/
def Sorted (db : DB) : Prop := db.Pairwise (fun a b => bytesLt a.1 b.1 = true)

/-- The invariant of the contents: keys strictly ascending, and every key with
the prefix `dbLogs` is the key of an index. -/
def Inv (db : DB) : Prop :=
  Sorted db ∧ ∀ kv ∈ db, hasPrefix kv.1 dbLogs = true → ∃ i, i < u64 ∧ kv.1 = logKey i

/-- The test of the loop of `DeleteRange` on one item: the key has the prefix
`dbLogs` and its index does not exceed `max`. -/
def inRange (max : Nat) (kv : Bytes × Bytes) : Bool :=
  hasPrefix kv.1 dbLogs &&
    (match bytesToUint64 (kv.1.drop dbLogs.length) with
      | some idx => decide (idx ≤ max)
      | none => false)

/-! ## The byte order -/

theorem bytesLt_irrefl (a : Bytes) : bytesLt a a = false := by
  induction a with
  | nil => rfl
  | cons x xs ih => simp [bytesLt, ih]

theorem bytesLt_asymm : ∀ (a b : Bytes), bytesLt a b = true → bytesLt b a = false
  | [], [], h => by simp [bytesLt] at h
  | [], _ :: _, _ => by simp [bytesLt]
  | _ :: _, [], h => by simp [bytesLt] at h
  | x :: xs, y :: ys, h => by
    simp only [bytesLt, Bool.or_eq_true, Bool.and_eq_true, decide_eq_true_eq] at h
    simp only [bytesLt, Bool.or_eq_false_iff, Bool.and_eq_false_imp, decide_eq_false_iff_not,
      decide_eq_true_eq]
    rcases h with h | ⟨h1, h2⟩
    · exact ⟨by omega, fun e => by omega⟩
    · exact ⟨by omega, fun _ => bytesLt_asymm xs ys h2⟩

theorem bytesLt_trans : ∀ (a b c : Bytes), bytesLt a b = true → bytesLt b c = true →
    bytesLt a c = true
  | [], [], _, h, _ => by simp [bytesLt] at h
  | [], _ :: _, [], _, h => by simp [bytesLt] at h
  | [], _ :: _, _ :: _, _, _ => by simp [bytesLt]
  | _ :: _, [], _, h, _ => by simp [bytesLt] at h
  | _ :: _, _ :: _, [], _, h => by simp [bytesLt] at h
  | x :: xs, y :: ys, z :: zs, h1, h2 => by
    simp only [bytesLt, Bool.or_eq_true, Bool.and_eq_true, decide_eq_true_eq] at h1 h2 ⊢
    rcases h1 with h1 | ⟨e1, h1⟩ <;> rcases h2 with h2 | ⟨e2, h2⟩
    · left; omega
    · left; omega
    · left; omega
    · right; exact ⟨by omega, bytesLt_trans xs ys zs h1 h2⟩

theorem bytesLt_total : ∀ (a b : Bytes), bytesLt a b = false → a ≠ b → bytesLt b a = true
  | [], [], _, h => absurd rfl h
  | [], _ :: _, h, _ => by simp [bytesLt] at h
  | _ :: _, [], _, _ => by simp [bytesLt]
  | x :: xs, y :: ys, h, hne => by
    simp only [bytesLt, Bool.or_eq_false_iff, Bool.and_eq_false_imp, decide_eq_false_iff_not,
      decide_eq_true_eq] at h
    simp only [bytesLt, Bool.or_eq_true, Bool.and_eq_true, decide_eq_true_eq]
    by_cases e : x = y
    · right
      refine ⟨e.symm, bytesLt_total xs ys (h.2 e) ?_⟩
      intro e2; exact hne (by rw [e, e2])
    · left; omega

theorem bytesLt_append_left (p a b : Bytes) : bytesLt (p ++ a) (p ++ b) = bytesLt a b := by
  induction p with
  | nil => rfl
  | cons x xs ih => simp [bytesLt, ih]

theorem hasPrefix_append (p x : Bytes) : hasPrefix (p ++ x) p = true := by
  induction p with
  | nil => cases x <;> rfl
  | cons a p ih => simp [hasPrefix, ih]

theorem eq_append_of_hasPrefix : ∀ (k p : Bytes), hasPrefix k p = true →
    k = p ++ k.drop p.length
  | _, [], _ => by simp
  | [], _ :: _, h => by simp [hasPrefix] at h
  | a :: k, b :: p, h => by
    simp only [hasPrefix, Bool.and_eq_true, decide_eq_true_eq] at h
    have := eq_append_of_hasPrefix k p h.2
    simp only [List.length_cons, List.drop_succ_cons, List.cons_append]
    rw [← this, h.1]

/-- A key lying between two keys that share a prefix has that prefix too. -/
theorem hasPrefix_of_between : ∀ (p x y k : Bytes), bytesLt k (p ++ x) = false →
    bytesLt (p ++ y) k = false → hasPrefix k p = true
  | [], _, _, k, _, _ => by cases k <;> rfl
  | _ :: _, _, _, [], h, _ => by simp [bytesLt] at h
  | a :: p, x, y, b :: k, h1, h2 => by
    simp only [List.cons_append, bytesLt, Bool.or_eq_false_iff, Bool.and_eq_false_imp,
      decide_eq_false_iff_not, decide_eq_true_eq] at h1 h2
    have e : b = a := by omega
    simp only [hasPrefix, Bool.and_eq_true, decide_eq_true_eq]
    exact ⟨e, hasPrefix_of_between p x y k (h1.2 e) (h2.2 e.symm)⟩

/-! ## The fixed-width encoding -/

theorem bytesToUint64_uint64ToBytes (u : Nat) (h : u < u64) :
    bytesToUint64 (uint64ToBytes u) = some u := by
  unfold u64 at h
  simp only [bytesToUint64, uint64ToBytes, Option.some.injEq]
  omega

theorem lexLt8 (a0 a1 a2 a3 a4 a5 a6 a7 b0 b1 b2 b3 b4 b5 b6 b7 : Nat)
    (h1 : a1 < 256) (h2 : a2 < 256) (h3 : a3 < 256) (h4 : a4 < 256)
    (h5 : a5 < 256) (h6 : a6 < 256) (h7 : a7 < 256)
    (g1 : b1 < 256) (g2 : b2 < 256) (g3 : b3 < 256) (g4 : b4 < 256)
    (g5 : b5 < 256) (g6 : b6 < 256) (g7 : b7 < 256) :
    bytesLt [a0, a1, a2, a3, a4, a5, a6, a7] [b0, b1, b2, b3, b4, b5, b6, b7] = true ↔
      a0 * 72057594037927936 + a1 * 281474976710656 + a2 * 1099511627776 +
        a3 * 4294967296 + a4 * 16777216 + a5 * 65536 + a6 * 256 + a7 <
      b0 * 72057594037927936 + b1 * 281474976710656 + b2 * 1099511627776 +
        b3 * 4294967296 + b4 * 16777216 + b5 * 65536 + b6 * 256 + b7 := by
  simp only [bytesLt, Bool.or_eq_true, Bool.and_eq_true, decide_eq_true_eq,
    Bool.or_false, Bool.false_eq_true, and_false, or_false]
  omega

theorem uint64ToBytes_digits (a : Nat) (ha : a < u64) :
    a / 72057594037927936 % 256 * 72057594037927936 +
      a / 281474976710656 % 256 * 281474976710656 + a / 1099511627776 % 256 * 1099511627776 +
      a / 4294967296 % 256 * 4294967296 + a / 16777216 % 256 * 16777216 +
      a / 65536 % 256 * 65536 + a / 256 % 256 * 256 + a % 256 = a := by
  unfold u64 at ha
  omega

theorem uint64ToBytes_lt (a b : Nat) (ha : a < u64) (hb : b < u64) :
    bytesLt (uint64ToBytes a) (uint64ToBytes b) = true ↔ a < b := by
  have key := lexLt8 (a / 72057594037927936 % 256) (a / 281474976710656 % 256)
    (a / 1099511627776 % 256) (a / 4294967296 % 256) (a / 16777216 % 256) (a / 65536 % 256)
    (a / 256 % 256) (a % 256) (b / 72057594037927936 % 256) (b / 281474976710656 % 256)
    (b / 1099511627776 % 256) (b / 4294967296 % 256) (b / 16777216 % 256) (b / 65536 % 256)
    (b / 256 % 256) (b % 256)
    (Nat.mod_lt _ (by decide)) (Nat.mod_lt _ (by decide)) (Nat.mod_lt _ (by decide))
    (Nat.mod_lt _ (by decide)) (Nat.mod_lt _ (by decide)) (Nat.mod_lt _ (by decide))
    (Nat.mod_lt _ (by decide)) (Nat.mod_lt _ (by decide)) (Nat.mod_lt _ (by decide))
    (Nat.mod_lt _ (by decide)) (Nat.mod_lt _ (by decide)) (Nat.mod_lt _ (by decide))
    (Nat.mod_lt _ (by decide)) (Nat.mod_lt _ (by decide))
  rw [uint64ToBytes_digits a ha, uint64ToBytes_digits b hb] at key
  exact key

theorem uint64ToBytes_inj (a b : Nat) (ha : a < u64) (hb : b < u64)
    (h : uint64ToBytes a = uint64ToBytes b) : a = b := by
  have h1 := bytesToUint64_uint64ToBytes a ha
  have h2 := bytesToUint64_uint64ToBytes b hb
  rw [h, h2] at h1
  exact (Option.some.inj h1).symm

theorem uint64ToBytes_mod (a : Nat) : uint64ToBytes (a % u64) = uint64ToBytes a := by
  unfold u64
  simp only [uint64ToBytes]
  congr 1
  · omega
  congr 1
  · omega
  congr 1
  · omega
  congr 1
  · omega
  congr 1
  · omega
  congr 1
  · omega
  congr 1
  · omega
  congr 1
  · omega

theorem uint64ToBytes_ge_min (a : Nat) : bytesLt (uint64ToBytes a) MIN_LOG_KEY = false := by
  simp [bytesLt, uint64ToBytes, MIN_LOG_KEY]

theorem uint64ToBytes_le_max (a : Nat) : bytesLt MAX_LOG_KEY (uint64ToBytes a) = false := by
  simp only [bytesLt, uint64ToBytes, MAX_LOG_KEY, Bool.or_eq_false_iff, Bool.and_eq_false_imp,
    decide_eq_false_iff_not, decide_eq_true_eq, Bool.or_false, Bool.and_false]
  omega

theorem logKey_lt (a b : Nat) (ha : a < u64) (hb : b < u64) :
    bytesLt (logKey a) (logKey b) = true ↔ a < b := by
  unfold logKey
  rw [bytesLt_append_left]
  exact uint64ToBytes_lt a b ha hb

theorem logKey_inj (a b : Nat) (ha : a < u64) (hb : b < u64) (h : logKey a = logKey b) :
    a = b :=
  uint64ToBytes_inj a b ha hb (List.append_cancel_left h)

theorem logKey_mod (a : Nat) : logKey (a % u64) = logKey a := by
  unfold logKey; rw [uint64ToBytes_mod]

theorem hasPrefix_logKey (a : Nat) : hasPrefix (logKey a) dbLogs = true :=
  hasPrefix_append dbLogs _

theorem hasPrefix_confKey (k : Bytes) : hasPrefix (confKey k) dbLogs = false := by
  simp [confKey, dbConf, dbLogs, hasPrefix]

theorem decode_logKey (a : Nat) (ha : a < u64) :
    bytesToUint64 ((logKey a).drop dbLogs.length) = some a := by
  have : (logKey a).drop dbLogs.length = uint64ToBytes a := by
    simp [logKey, dbLogs]
  rw [this]; exact bytesToUint64_uint64ToBytes a ha

theorem logKey_ne_confKey (a : Nat) (k : Bytes) : logKey a ≠ confKey k := by
  simp [logKey, confKey, dbLogs, dbConf]

/-! ## The key-value contents -/

theorem get_put (db : DB) (k v k1 : Bytes) :
    (db.put k v).get k1 = if k = k1 then some v else db.get k1 := by
  induction db with
  | nil => simp [DB.put, DB.get]
  | cons hd tl ih =>
    obtain ⟨a, b⟩ := hd
    simp only [DB.put]
    split
    · simp [DB.get]
    · split
      · rename_i h1 h2
        subst h2
        by_cases e : k = k1 <;> simp [DB.get, e]
      · rename_i h1 h2
        simp only [DB.get, ih]
        by_cases e : a = k1
        · have : ¬ k = k1 := fun h => h2 (h.trans e.symm)
          simp [e, this]
        · simp [e]

theorem get_del (db : DB) (k k1 : Bytes) :
    (db.del k).get k1 = if k1 = k then none else db.get k1 := by
  induction db with
  | nil => simp [DB.del, DB.get]
  | cons hd tl ih =>
    obtain ⟨a, b⟩ := hd
    unfold DB.del at ih ⊢
    by_cases e : a = k
    · subst e
      simp only [List.filter, ne_eq, not_true_eq_false, decide_False, ih, DB.get]
      by_cases e2 : k1 = a
      · simp [e2]
      · have : ¬ a = k1 := fun h => e2 h.symm
        simp [e2, this]
    · simp only [List.filter, ne_eq, e, not_false_eq_true, decide_True, DB.get, ih]
      by_cases e2 : a = k1
      · have : ¬ k1 = k := fun h => e (e2.trans h)
        simp [e2, this]
      · simp [e2]

theorem get_isSome_iff (db : DB) (k : Bytes) :
    (db.get k).isSome = true ↔ ∃ v, (k, v) ∈ db := by
  induction db with
  | nil => simp [DB.get]
  | cons hd tl ih =>
    obtain ⟨a, b⟩ := hd
    simp only [DB.get, List.mem_cons, Prod.mk.injEq]
    by_cases e : a = k
    · simp only [e, if_true, Option.isSome_some, true_iff]
      exact ⟨b, Or.inl (by simp)⟩
    · simp only [e, if_false, ih]
      constructor
      · rintro ⟨v, hv⟩; exact ⟨v, Or.inr hv⟩
      · rintro ⟨v, hv | hv⟩
        · exact absurd hv.1.symm e
        · exact ⟨v, hv⟩

theorem mem_put (db : DB) (k v : Bytes) (x : Bytes × Bytes) (h : x ∈ db.put k v) :
    x = (k, v) ∨ x ∈ db := by
  induction db with
  | nil => simp [DB.put] at h; exact Or.inl h
  | cons hd tl ih =>
    obtain ⟨a, b⟩ := hd
    simp only [DB.put] at h
    split at h
    · simp only [List.mem_cons] at h ⊢
      exact h
    · split at h
      · simp only [List.mem_cons] at h ⊢
        rcases h with h | h
        · exact Or.inl h
        · exact Or.inr (Or.inr h)
      · simp only [List.mem_cons] at h ⊢
        rcases h with h | h
        · exact Or.inr (Or.inl h)
        · rcases ih h with h | h
          · exact Or.inl h
          · exact Or.inr (Or.inr h)

theorem sorted_put (db : DB) (k v : Bytes) (h : Sorted db) : Sorted (db.put k v) := by
  induction db with
  | nil => simp [DB.put, Sorted]
  | cons hd tl ih =>
    obtain ⟨a, b⟩ := hd
    unfold Sorted at h ih ⊢
    rw [List.pairwise_cons] at h
    simp only [DB.put]
    split
    · rename_i h1
      rw [List.pairwise_cons]
      refine ⟨?_, List.pairwise_cons.mpr h⟩
      intro x hx
      rcases List.mem_cons.mp hx with hx | hx
      · rw [hx]; exact h1
      · exact bytesLt_trans _ _ _ h1 (h.1 x hx)
    · split
      · rename_i h1 h2
        subst h2
        rw [List.pairwise_cons]
        exact ⟨h.1, h.2⟩
      · rename_i h1 h2
        rw [List.pairwise_cons]
        refine ⟨?_, ih h.2⟩
        intro x hx
        rcases mem_put tl k v x hx with hx | hx
        · rw [hx]
          exact bytesLt_total k a (by simpa using h1) h2
        · exact h.1 x hx

theorem sorted_del (db : DB) (k : Bytes) (h : Sorted db) : Sorted (db.del k) :=
  List.Pairwise.sublist (List.filter_sublist db) h

theorem inv_nil : Inv [] := by
  constructor
  · simp [Sorted]
  · intro kv h; simp at h

theorem inv_put (db : DB) (k v : Bytes) (h : Inv db)
    (hk : hasPrefix k dbLogs = true → ∃ i, i < u64 ∧ k = logKey i) : Inv (db.put k v) := by
  refine ⟨sorted_put db k v h.1, ?_⟩
  intro kv hkv
  rcases mem_put db k v kv hkv with e | e
  · rw [e]; exact hk
  · exact h.2 kv e

theorem inv_del (db : DB) (k : Bytes) (h : Inv db) : Inv (db.del k) := by
  refine ⟨sorted_del db k h.1, ?_⟩
  intro kv hkv
  exact h.2 kv (List.mem_of_mem_filter hkv)

theorem stored_iff (db : DB) (i : Nat) : stored db i = true ↔ ∃ v, (logKey i, v) ∈ db := by
  unfold stored; exact get_isSome_iff db (logKey i)

theorem logKey_ge_seekMin (i : Nat) : bytesLt (logKey i) (dbLogs ++ MIN_LOG_KEY) = false := by
  unfold logKey; rw [bytesLt_append_left]; exact uint64ToBytes_ge_min i

theorem logKey_le_seekMax (i : Nat) : bytesLt (dbLogs ++ MAX_LOG_KEY) (logKey i) = false := by
  unfold logKey; rw [bytesLt_append_left]; exact uint64ToBytes_le_max i

/-- What `FirstIndex` returns on contents that satisfy the invariant. -/
theorem firstIndex_spec (db : DB) (h : Inv db) :
    ∃ lo, FirstIndex db = some (lo, none) ∧
      ((∀ i, i < u64 → stored db i = false) → lo = 0) ∧
      (∀ i, i < u64 → stored db i = true →
        lo < u64 ∧ stored db lo = true ∧ ∀ j, j < u64 → stored db j = true → lo ≤ j) := by
  have hsorted : (seek db false (dbLogs ++ MIN_LOG_KEY)).Pairwise
      (fun a b => bytesLt a.1 b.1 = true) := by
    simp only [seek, Bool.false_eq_true, if_false]
    exact List.Pairwise.sublist (List.filter_sublist db) h.1
  have hmem : ∀ i v, (logKey i, v) ∈ db → (logKey i, v) ∈ seek db false (dbLogs ++ MIN_LOG_KEY) := by
    intro i v hv
    simp only [seek, Bool.false_eq_true, if_false, List.mem_filter]
    exact ⟨hv, by simp [logKey_ge_seekMin i]⟩
  have hsub : ∀ x, x ∈ seek db false (dbLogs ++ MIN_LOG_KEY) →
      x ∈ db ∧ bytesLt x.1 (dbLogs ++ MIN_LOG_KEY) = false := by
    intro x hx
    simp only [seek, Bool.false_eq_true, if_false, List.mem_filter] at hx
    exact ⟨hx.1, by simpa using hx.2⟩
  unfold FirstIndex
  cases hL : seek db false (dbLogs ++ MIN_LOG_KEY) with
  | nil =>
    refine ⟨0, rfl, fun _ => rfl, ?_⟩
    intro i _ hi
    obtain ⟨v, hv⟩ := (stored_iff db i).mp hi
    have := hmem i v hv
    rw [hL] at this
    simp at this
  | cons hd rest =>
    obtain ⟨k, v⟩ := hd
    rw [hL] at hsorted hmem hsub
    have hk := hsub (k, v) (List.mem_cons_self _ _)
    rw [List.pairwise_cons] at hsorted
    by_cases hp : hasPrefix k dbLogs = true
    · obtain ⟨i0, hi0, e⟩ := h.2 (k, v) hk.1 hp
      simp only at e
      subst e
      simp only [hp, if_true, decode_logKey i0 hi0, Option.map_some']
      refine ⟨i0, rfl, ?_, ?_⟩
      · intro hnone
        have : stored db i0 = true := (stored_iff db i0).mpr ⟨v, hk.1⟩
        rw [hnone i0 hi0] at this
        exact absurd this (by simp)
      · intro i _ _
        refine ⟨hi0, (stored_iff db i0).mpr ⟨v, hk.1⟩, ?_⟩
        intro j hj hsj
        obtain ⟨w, hw⟩ := (stored_iff db j).mp hsj
        rcases List.mem_cons.mp (hmem j w hw) with e | e
        · have : logKey j = logKey i0 := congrArg Prod.fst e
          exact le_of_eq (logKey_inj j i0 hj hi0 this).symm
        · exact le_of_lt ((logKey_lt i0 j hi0 hj).mp (hsorted.1 _ e))
    · simp only [hp, if_false]
      have hnone : ∀ i, stored db i = true → False := by
        intro i hi
        obtain ⟨w, hw⟩ := (stored_iff db i).mp hi
        rcases List.mem_cons.mp (hmem i w hw) with e | e
        · have : logKey i = k := congrArg Prod.fst e
          rw [← this, hasPrefix_logKey] at hp
          exact hp rfl
        · have h1 : bytesLt k (logKey i) = true := hsorted.1 _ e
          have h2 := bytesLt_asymm _ _ h1
          exact hp (hasPrefix_of_between dbLogs MIN_LOG_KEY (uint64ToBytes i) k hk.2 h2)
      refine ⟨0, rfl, fun _ => rfl, ?_⟩
      intro i _ hi
      exact absurd hi (fun h => hnone i h)

/-- What `LastIndex` returns on contents that satisfy the invariant. -/
theorem lastIndex_spec (db : DB) (h : Inv db) :
    ∃ hi, LastIndex db = some (hi, none) ∧
      ((∀ i, i < u64 → stored db i = false) → hi = 0) ∧
      (∀ i, i < u64 → stored db i = true →
        hi < u64 ∧ stored db hi = true ∧ ∀ j, j < u64 → stored db j = true → j ≤ hi) := by
  have hsorted : (seek db true (dbLogs ++ MAX_LOG_KEY)).Pairwise
      (fun a b => bytesLt b.1 a.1 = true) := by
    simp only [seek, if_true]
    exact List.Pairwise.sublist (List.filter_sublist _) (List.pairwise_reverse.mpr h.1)
  have hmem : ∀ i v, (logKey i, v) ∈ db → (logKey i, v) ∈ seek db true (dbLogs ++ MAX_LOG_KEY) := by
    intro i v hv
    simp only [seek, if_true, List.mem_filter, List.mem_reverse]
    exact ⟨hv, by simp [logKey_le_seekMax i]⟩
  have hsub : ∀ x, x ∈ seek db true (dbLogs ++ MAX_LOG_KEY) →
      x ∈ db ∧ bytesLt (dbLogs ++ MAX_LOG_KEY) x.1 = false := by
    intro x hx
    simp only [seek, if_true, List.mem_filter, List.mem_reverse] at hx
    exact ⟨hx.1, by simpa using hx.2⟩
  unfold LastIndex
  cases hL : seek db true (dbLogs ++ MAX_LOG_KEY) with
  | nil =>
    refine ⟨0, rfl, fun _ => rfl, ?_⟩
    intro i _ hi
    obtain ⟨v, hv⟩ := (stored_iff db i).mp hi
    have := hmem i v hv
    rw [hL] at this
    simp at this
  | cons hd rest =>
    obtain ⟨k, v⟩ := hd
    rw [hL] at hsorted hmem hsub
    have hk := hsub (k, v) (List.mem_cons_self _ _)
    rw [List.pairwise_cons] at hsorted
    by_cases hp : hasPrefix k dbLogs = true
    · obtain ⟨i0, hi0, e⟩ := h.2 (k, v) hk.1 hp
      simp only at e
      subst e
      simp only [hp, if_true, decode_logKey i0 hi0, Option.map_some']
      refine ⟨i0, rfl, ?_, ?_⟩
      · intro hnone
        have : stored db i0 = true := (stored_iff db i0).mpr ⟨v, hk.1⟩
        rw [hnone i0 hi0] at this
        exact absurd this (by simp)
      · intro i _ _
        refine ⟨hi0, (stored_iff db i0).mpr ⟨v, hk.1⟩, ?_⟩
        intro j hj hsj
        obtain ⟨w, hw⟩ := (stored_iff db j).mp hsj
        rcases List.mem_cons.mp (hmem j w hw) with e | e
        · have : logKey j = logKey i0 := congrArg Prod.fst e
          exact le_of_eq (logKey_inj j i0 hj hi0 this)
        · exact le_of_lt ((logKey_lt j i0 hj hi0).mp (hsorted.1 _ e))
    · simp only [hp, if_false]
      have hnone : ∀ i, stored db i = true → False := by
        intro i hi
        obtain ⟨w, hw⟩ := (stored_iff db i).mp hi
        rcases List.mem_cons.mp (hmem i w hw) with e | e
        · have : logKey i = k := congrArg Prod.fst e
          rw [← this, hasPrefix_logKey] at hp
          exact hp rfl
        · have h1 : bytesLt (logKey i) k = true := hsorted.1 _ e
          have h2 := bytesLt_asymm _ _ h1
          exact hp (hasPrefix_of_between dbLogs (uint64ToBytes i) MAX_LOG_KEY k h2 hk.2)
      refine ⟨0, rfl, fun _ => rfl, ?_⟩
      intro i _ hi
      exact absurd hi (fun h => hnone i h)

/-! ## Transactions and the loops -/

theorem applyWrites_nil (db : DB) : applyWrites db [] = db := rfl

theorem applyWrites_cons (db : DB) (w : Write) (ws : List Write) :
    applyWrites db (w :: ws) =
      applyWrites (match w.2 with
        | some v => db.put w.1 v
        | none => db.del w.1) ws := rfl

theorem applyWrites_append (db : DB) (ws1 ws2 : List Write) :
    applyWrites db (ws1 ++ ws2) = applyWrites (applyWrites db ws1) ws2 := by
  unfold applyWrites; rw [List.foldl_append]

/-- Writes to other keys leave the value under a key as it was. -/
theorem get_applyWrites_other (ws : List Write) (db : DB) (k : Bytes)
    (h : ∀ w ∈ ws, w.1 ≠ k) : (applyWrites db ws).get k = db.get k := by
  induction ws generalizing db with
  | nil => rfl
  | cons w ws ih =>
    rw [applyWrites_cons, ih _ (fun x hx => h x (List.mem_cons_of_mem _ hx))]
    have hw : w.1 ≠ k := h w (List.mem_cons_self _ _)
    cases hv : w.2 with
    | none => simp only [get_del]; rw [if_neg (fun e => hw e.symm)]
    | some v => simp only [get_put]; rw [if_neg hw]

/-- After deletions only, a key is gone when it was deleted and otherwise as it was. -/
theorem get_applyWrites_dels (ks : List Bytes) (db : DB) (k : Bytes) :
    (applyWrites db (ks.map (fun x => (x, none)))).get k =
      if k ∈ ks then none else db.get k := by
  induction ks generalizing db with
  | nil => simp [applyWrites_nil]
  | cons k0 ks ih =>
    rw [List.map_cons, applyWrites_cons, ih]
    simp only [get_del, List.mem_cons]
    by_cases e1 : k ∈ ks
    · simp [e1]
    · by_cases e2 : k = k0 <;> simp [e1, e2]

theorem inv_applyWrites (ws : List Write) (db : DB) (h : Inv db)
    (hw : ∀ w ∈ ws, w.2 = none ∨
      (hasPrefix w.1 dbLogs = true → ∃ i, i < u64 ∧ w.1 = logKey i)) :
    Inv (applyWrites db ws) := by
  induction ws generalizing db with
  | nil => exact h
  | cons w ws ih =>
    rw [applyWrites_cons]
    apply ih _ _ (fun x hx => hw x (List.mem_cons_of_mem _ hx))
    cases hv : w.2 with
    | none => exact inv_del db w.1 h
    | some v =>
      rcases hw w (List.mem_cons_self _ _) with e | e
      · rw [hv] at e; exact absurd e (by simp)
      · exact inv_put db w.1 v h e

theorem commit_fst (eng : Engine) (db : DB) (pend : List Write) :
    (commit eng db pend).1 = db ∨ (commit eng db pend).1 = applyWrites db pend := by
  unfold commit
  split
  · exact Or.inl rfl
  · split
    · exact Or.inl rfl
    · exact Or.inr rfl

theorem commit_ok (eng : Engine) (db db1 : DB) (pend : List Write)
    (h : commit eng db pend = (db1, none)) : db1 = applyWrites db pend := by
  unfold commit at h
  split at h
  · rename_i e
    rw [e, applyWrites_nil]
    exact (congrArg Prod.fst h).symm
  · split at h
    · have := congrArg Prod.snd h
      simp at this
    · exact (congrArg Prod.fst h).symm

theorem commit_err (eng : Engine) (db db1 : DB) (pend : List Write) (err : Err)
    (h : commit eng db pend = (db1, some err)) : db1 = db := by
  unfold commit at h
  split at h
  · exact (congrArg Prod.fst h).symm
  · split at h
    · exact (congrArg Prod.fst h).symm
    · have := congrArg Prod.snd h
      simp at this

/-- The writes staged by a loop of `StoreLogs` that ends without error: one per
entry, in order, each the entry's key with its encoding. -/
theorem stageLogs_ok (eng : Engine) (c : Codec) (logs : List Log) (pend pend1 : List Write)
    (h : stageLogs eng c logs pend = .ok pend1) :
    ∃ ws, pend1 = pend ++ ws ∧
      List.Forall₂ (fun l w => ∃ v, c.encodeMsgPack l = .ok v ∧ w = (logKey l.Index, some v))
        logs ws := by
  induction logs generalizing pend with
  | nil =>
    simp only [stageLogs, Except.ok.injEq] at h
    exact ⟨[], by simp [h], List.Forall₂.nil⟩
  | cons l rest ih =>
    simp only [stageLogs] at h
    cases he : c.encodeMsgPack l with
    | error e => rw [he] at h; simp at h
    | ok v =>
      rw [he] at h
      simp only at h
      cases hs : eng.setErr pend (logKey l.Index) v with
      | some e => rw [hs] at h; simp at h
      | none =>
        rw [hs] at h
        simp only at h
        obtain ⟨ws, h1, h2⟩ := ih _ h
        refine ⟨(logKey l.Index, some v) :: ws, ?_, List.Forall₂.cons ⟨v, he, rfl⟩ h2⟩
        rw [h1]; simp

/-- The loop of `DeleteRange` over items whose keys with the prefix `dbLogs` are
keys of indices: it returns, and when it ends without error it has staged the
deletion of the leading items that pass the test, in order. -/
theorem deleteLoop_spec (eng : Engine) (max : Nat) (L : List (Bytes × Bytes))
    (pend : List Write)
    (hL : ∀ x ∈ L, hasPrefix x.1 dbLogs = true → ∃ i, i < u64 ∧ x.1 = logKey i) :
    ∃ r, deleteLoop eng max L pend = some r ∧
      (∀ pend1, r = .ok pend1 →
        pend1 = pend ++ (L.takeWhile (inRange max)).map (fun kv => (kv.1, none))) ∧
      (L.takeWhile (inRange max) = [] → r = .ok pend) := by
  induction L generalizing pend with
  | nil => exact ⟨.ok pend, rfl, fun p hp => by simp at hp ⊢; exact hp.symm, fun _ => rfl⟩
  | cons hd rest ih =>
    obtain ⟨k, v⟩ := hd
    by_cases hp : hasPrefix k dbLogs = true
    · obtain ⟨i, hi, e⟩ := hL (k, v) (List.mem_cons_self _ _) hp
      simp only at e
      subst e
      by_cases hm : i > max
      · refine ⟨.ok pend, ?_, ?_, fun _ => rfl⟩
        · simp [deleteLoop, hp, decode_logKey i hi, hm]
        · intro p hp1
          have : inRange max (logKey i, v) = false := by
            simp [inRange, hp, decode_logKey i hi, hm]
          simp only [Except.ok.injEq] at hp1
          simp [List.takeWhile, this, hp1]
      · have hin : inRange max (logKey i, v) = true := by
          simp only [inRange, hp, decode_logKey i hi, Bool.true_and, decide_eq_true_eq]
          omega
        cases hd : eng.deleteErr pend (logKey i) with
        | some err =>
          refine ⟨.error err, ?_, ?_, ?_⟩
          · simp [deleteLoop, hp, decode_logKey i hi, hm, hd]
          · intro p hp1; simp at hp1
          · intro h0; simp [List.takeWhile, hin] at h0
        | none =>
          obtain ⟨r, h1, h2, _⟩ := ih (pend ++ [(logKey i, none)])
            (fun x hx => hL x (List.mem_cons_of_mem _ hx))
          refine ⟨r, ?_, ?_, ?_⟩
          · simp [deleteLoop, hp, decode_logKey i hi, hm, hd, h1]
          · intro p hp1
            rw [h2 p hp1]
            simp [List.takeWhile, hin]
          · intro h0; simp [List.takeWhile, hin] at h0
    · refine ⟨.ok pend, ?_, ?_, fun _ => rfl⟩
      · simp [deleteLoop, hp]
      · intro p hp1
        have : inRange max (k, v) = false := by simp [inRange, hp]
        simp only [Except.ok.injEq] at hp1
        simp [List.takeWhile, this, hp1]

/-- Every write staged by the loop of `DeleteRange` deletes a key with the
prefix `dbLogs`. -/
theorem deleteLoop_writes (eng : Engine) (max : Nat) (L : List (Bytes × Bytes))
    (pend pend1 : List Write) (h : deleteLoop eng max L pend = some (.ok pend1)) :
    ∀ w ∈ pend1, w ∈ pend ∨ (w.2 = none ∧ hasPrefix w.1 dbLogs = true) := by
  induction L generalizing pend with
  | nil =>
    simp only [deleteLoop, Option.some.injEq, Except.ok.injEq] at h
    subst h; intro w hw; exact Or.inl hw
  | cons hd rest ih =>
    obtain ⟨k, v⟩ := hd
    simp only [deleteLoop] at h
    split at h
    · rename_i hp
      split at h
      · simp at h
      · split at h
        · simp only [Option.some.injEq, Except.ok.injEq] at h
          subst h; intro w hw; exact Or.inl hw
        · split at h
          · simp at h
          · intro w hw
            rcases ih _ h w hw with e | e
            · rcases List.mem_append.mp e with e | e
              · exact Or.inl e
              · simp only [List.mem_singleton] at e
                subst e
                exact Or.inr ⟨rfl, hp⟩
            · exact Or.inr e
    · simp only [Option.some.injEq, Except.ok.injEq] at h
      subst h; intro w hw; exact Or.inl hw

/-! ## The invariant along runs -/

theorem forall₂_writes_mem (c : Codec) (logs : List Log) (ws : List Write)
    (h : List.Forall₂ (fun l w => ∃ v, c.encodeMsgPack l = .ok v ∧ w = (logKey l.Index, some v))
      logs ws) :
    ∀ w ∈ ws, ∃ l ∈ logs, ∃ v, c.encodeMsgPack l = .ok v ∧ w = (logKey l.Index, some v) := by
  induction h with
  | nil => intro w hw; simp at hw
  | cons hx _ ih =>
    intro w hw
    rcases List.mem_cons.mp hw with e | e
    · obtain ⟨v, h1, h2⟩ := hx
      exact ⟨_, List.mem_cons_self _ _, v, h1, e.trans h2⟩
    · obtain ⟨l, hl, r⟩ := ih w e
      exact ⟨l, List.mem_cons_of_mem _ hl, r⟩

theorem inv_StoreLogs (eng : Engine) (c : Codec) (db : DB) (logs : List Log) (h : Inv db) :
    Inv (StoreLogs eng c db logs).1 := by
  unfold StoreLogs
  cases hs : stageLogs eng c logs [] with
  | error e => exact h
  | ok pend =>
    simp only
    obtain ⟨ws, h1, h2⟩ := stageLogs_ok eng c logs [] pend hs
    rcases commit_fst eng db pend with e | e
    · rw [e]; exact h
    · rw [e]
      apply inv_applyWrites _ _ h
      intro w hw
      rw [h1, List.nil_append] at hw
      obtain ⟨l, _, v, _, hv⟩ := forall₂_writes_mem c logs ws h2 w hw
      right
      intro _
      exact ⟨l.Index % u64, Nat.mod_lt _ (by decide), by rw [hv, logKey_mod]⟩

theorem inv_DeleteRange (eng : Engine) (db : DB) (min max : Nat) (h : Inv db)
    (r : DB × Option Err) (hr : DeleteRange eng db min max = some r) : Inv r.1 := by
  unfold DeleteRange at hr
  split at hr
  · simp at hr
  · simp only [Option.some.injEq] at hr
    subst hr; exact h
  · rename_i pend hp
    simp only [Option.some.injEq] at hr
    subst hr
    rcases commit_fst eng db pend with e | e
    · rw [e]; exact h
    · rw [e]
      apply inv_applyWrites _ _ h
      intro w hw
      rcases deleteLoop_writes eng max _ [] pend hp w hw with e1 | e1
      · simp at e1
      · exact Or.inl e1.1

theorem inv_Set (eng : Engine) (db : DB) (k v : Bytes) (h : Inv db) :
    Inv (Set eng db k v).1 := by
  unfold Set
  split
  · exact h
  · rcases commit_fst eng db [(confKey k, some v)] with e | e
    · rw [e]; exact h
    · rw [e]
      apply inv_applyWrites _ _ h
      intro w hw
      simp only [List.mem_singleton] at hw
      subst hw
      right
      intro hp
      rw [hasPrefix_confKey] at hp
      exact absurd hp (by simp)

theorem inv_step (eng : Engine) (c : Codec) (db : DB) (op : Op) (h : Inv db) :
    Inv (step eng c db op) := by
  cases op with
  | storeLogs logs => exact inv_StoreLogs eng c db logs h
  | deleteRange min max =>
    simp only [step]
    cases hd : DeleteRange eng db min max with
    | none => exact h
    | some r => exact inv_DeleteRange eng db min max h r hd
  | set k v => exact inv_Set eng db k v h

theorem inv_run (eng : Engine) (c : Codec) (ops : List Op) (db : DB) (h : Inv db) :
    Inv (run eng c db ops) := by
  induction ops generalizing db with
  | nil => exact h
  | cons op ops ih => exact ih _ (inv_step eng c db op h)

/-- On contents with the same stored indices `FirstIndex` returns the same. -/
theorem firstIndex_congr (db db1 : DB) (h : Inv db) (h1 : Inv db1)
    (hs : ∀ i, stored db1 i = stored db i) : FirstIndex db1 = FirstIndex db := by
  obtain ⟨a, ha, ha0, ha1⟩ := firstIndex_spec db h
  obtain ⟨b, hb, hb0, hb1⟩ := firstIndex_spec db1 h1
  rw [ha, hb]
  by_cases hex : ∃ i, i < u64 ∧ stored db i = true
  · obtain ⟨i, hi, hsi⟩ := hex
    obtain ⟨al, as, am⟩ := ha1 i hi hsi
    obtain ⟨bl, bs, bm⟩ := hb1 i hi (by rw [hs]; exact hsi)
    have h1 := am b bl (by rw [← hs]; exact bs)
    have h2 := bm a al (by rw [hs]; exact as)
    have : a = b := by omega
    rw [this]
  · have hn : ∀ i, i < u64 → stored db i = false := by
      intro i hi
      cases hsi : stored db i with
      | false => rfl
      | true => exact absurd ⟨i, hi, hsi⟩ hex
    rw [ha0 hn, hb0 (fun i hi => by rw [hs]; exact hn i hi)]

/-- On contents with the same stored indices `LastIndex` returns the same. -/
theorem lastIndex_congr (db db1 : DB) (h : Inv db) (h1 : Inv db1)
    (hs : ∀ i, stored db1 i = stored db i) : LastIndex db1 = LastIndex db := by
  obtain ⟨a, ha, ha0, ha1⟩ := lastIndex_spec db h
  obtain ⟨b, hb, hb0, hb1⟩ := lastIndex_spec db1 h1
  rw [ha, hb]
  by_cases hex : ∃ i, i < u64 ∧ stored db i = true
  · obtain ⟨i, hi, hsi⟩ := hex
    obtain ⟨al, as, am⟩ := ha1 i hi hsi
    obtain ⟨bl, bs, bm⟩ := hb1 i hi (by rw [hs]; exact hsi)
    have h1 := am b bl (by rw [← hs]; exact bs)
    have h2 := bm a al (by rw [hs]; exact as)
    have : a = b := by omega
    rw [this]
  · have hn : ∀ i, i < u64 → stored db i = false := by
      intro i hi
      cases hsi : stored db i with
      | false => rfl
      | true => exact absurd ⟨i, hi, hsi⟩ hex
    rw [ha0 hn, hb0 (fun i hi => by rw [hs]; exact hn i hi)]

theorem GetLog_congr (c : Codec) (db db1 : DB) (i : Nat)
    (h : db1.get (logKey i) = db.get (logKey i)) : GetLog c db1 i = GetLog c db i := by
  unfold GetLog txGet; rw [h]

theorem GetLog_none (c : Codec) (db : DB) (i : Nat) (h : db.get (logKey i) = none) :
    GetLog c db i = .error Err.raftErrLogNotFound := by
  unfold GetLog txGet; rw [h]; rfl

theorem GetLog_some (c : Codec) (db : DB) (i : Nat) (v : Bytes)
    (h : db.get (logKey i) = some v) : GetLog c db i = c.decodeMsgPack v := by
  unfold GetLog txGet itemValue; rw [h]

theorem Get_congr (db db1 : DB) (k : Bytes)
    (h : db1.get (confKey k) = db.get (confKey k)) : Get db1 k = Get db k := by
  unfold Get txGet; rw [h]

theorem Get_none (db : DB) (k : Bytes) (h : db.get (confKey k) = none) :
    Get db k = .error Err.ErrKeyNotFound := by
  unfold Get txGet; rw [h]; rfl

theorem Get_some (db : DB) (k v : Bytes) (h : db.get (confKey k) = some v) :
    Get db k = .ok v := by
  unfold Get txGet itemValue; rw [h]

/-! ## First and last index -/

/-- C1: in every state reached from the empty store by successful or failed
`StoreLogs`, `DeleteRange` and `Set` calls, `FirstIndex` and `LastIndex` return
with a nil error; when some index is stored they return the smallest and the
largest stored index, and when none is stored both return 0. -/
theorem FirstIndex_LastIndex_min_max (eng : Engine) (c : Codec) (ops : List Op) :
    ∃ lo hi, FirstIndex (run eng c [] ops) = some (lo, none) ∧
      LastIndex (run eng c [] ops) = some (hi, none) ∧
      ((∃ i, i < u64 ∧ stored (run eng c [] ops) i = true) →
        lo < u64 ∧ hi < u64 ∧ stored (run eng c [] ops) lo = true ∧
        stored (run eng c [] ops) hi = true ∧
        ∀ j, j < u64 → stored (run eng c [] ops) j = true → lo ≤ j ∧ j ≤ hi) ∧
      ((∀ i, i < u64 → stored (run eng c [] ops) i = false) → lo = 0 ∧ hi = 0) := by
  have hinv := inv_run eng c ops [] inv_nil
  obtain ⟨lo, h1, h2, h3⟩ := firstIndex_spec _ hinv
  obtain ⟨hi, g1, g2, g3⟩ := lastIndex_spec _ hinv
  refine ⟨lo, hi, h1, g1, ?_, fun hn => ⟨h2 hn, g2 hn⟩⟩
  rintro ⟨i, hi1, hs⟩
  obtain ⟨a1, a2, a3⟩ := h3 i hi1 hs
  obtain ⟨b1, b2, b3⟩ := g3 i hi1 hs
  exact ⟨a1, b1, a2, b2, fun j hj hsj => ⟨a3 j hj hsj, b3 j hj hsj⟩⟩

/-- The witness of C1: after entries are stored at indices 5, 6 and 7 in the empty
store, `FirstIndex` returns 5 and `LastIndex` returns 7. -/
theorem FirstIndex_LastIndex_min_max_witness :
    (StoreLogs okEngine sampleCodec [] [sampleLog 5, sampleLog 6, sampleLog 7]).2 = none ∧
      FirstIndex (StoreLogs okEngine sampleCodec []
        [sampleLog 5, sampleLog 6, sampleLog 7]).1 = some (5, none) ∧
      LastIndex (StoreLogs okEngine sampleCodec []
        [sampleLog 5, sampleLog 6, sampleLog 7]).1 = some (7, none) :=
  ⟨by decide, by decide, by decide⟩

/-! ## Range deletion -/

theorem mem_takeWhile_of_pairwise {α : Type} (R : α → α → Prop) (P : α → Bool) (L : List α)
    (x : α) (hs : L.Pairwise R) (hx : x ∈ L) (hP : ∀ y ∈ L, (y = x ∨ R y x) → P y = true) :
    x ∈ L.takeWhile P := by
  induction L with
  | nil => simp at hx
  | cons y ys ih =>
    rw [List.pairwise_cons] at hs
    have hy : P y = true := by
      apply hP y (List.mem_cons_self _ _)
      rcases List.mem_cons.mp hx with e | e
      · exact Or.inl e.symm
      · exact Or.inr (hs.1 x e)
    rw [List.takeWhile_cons, if_pos hy]
    rcases List.mem_cons.mp hx with e | e
    · rw [e]; exact List.mem_cons_self _ _
    · exact List.mem_cons_of_mem _
        (ih hs.2 e (fun z hz hzx => hP z (List.mem_cons_of_mem _ hz) hzx))

/-- The keys whose deletion `DeleteRange(min, max)` stages are the keys of the
stored indices from `min` to `max`. -/
theorem mem_deleted_iff (db : DB) (h : Inv db) (min max i : Nat) (hmin : min < u64)
    (hi : i < u64) :
    logKey i ∈ ((seek db false (logKey min)).takeWhile (inRange max)).map Prod.fst ↔
      stored db i = true ∧ min ≤ i ∧ i ≤ max := by
  have hsorted : (seek db false (logKey min)).Pairwise (fun a b => bytesLt a.1 b.1 = true) := by
    simp only [seek, Bool.false_eq_true, if_false]
    exact List.Pairwise.sublist (List.filter_sublist db) h.1
  have hsub : ∀ x, x ∈ seek db false (logKey min) ↔
      x ∈ db ∧ bytesLt x.1 (logKey min) = false := by
    intro x
    simp only [seek, Bool.false_eq_true, if_false, List.mem_filter, Bool.not_eq_true']
  constructor
  · intro hm
    obtain ⟨x, hx, e⟩ := List.mem_map.mp hm
    have hP := List.mem_takeWhile_imp hx
    have hxL := (List.takeWhile_sublist (inRange max)).subset hx
    obtain ⟨hxdb, hge⟩ := (hsub x).mp hxL
    obtain ⟨k, v⟩ := x
    simp only at e hge
    subst e
    refine ⟨(stored_iff db i).mpr ⟨v, hxdb⟩, ?_, ?_⟩
    · have := (logKey_lt i min hi hmin).not.mp (by rw [hge]; simp)
      omega
    · simp only [inRange, hasPrefix_logKey, decode_logKey i hi, Bool.true_and,
        decide_eq_true_eq] at hP
      exact hP
  · rintro ⟨hs, h1, h2⟩
    obtain ⟨v, hv⟩ := (stored_iff db i).mp hs
    have hge : bytesLt (logKey i) (logKey min) = false := by
      have := (logKey_lt i min hi hmin).not.mpr (by omega)
      simpa using this
    have hxL : (logKey i, v) ∈ seek db false (logKey min) := (hsub _).mpr ⟨hv, hge⟩
    apply List.mem_map.mpr
    refine ⟨(logKey i, v), ?_, rfl⟩
    apply mem_takeWhile_of_pairwise _ _ _ _ hsorted hxL
    intro y hy hyx
    obtain ⟨hydb, hyge⟩ := (hsub y).mp hy
    have hle : bytesLt (logKey i) y.1 = false := by
      rcases hyx with e | e
      · rw [e]; exact bytesLt_irrefl _
      · exact bytesLt_asymm _ _ e
    have hp : hasPrefix y.1 dbLogs = true :=
      hasPrefix_of_between dbLogs (uint64ToBytes min) (uint64ToBytes i) y.1 hyge hle
    obtain ⟨j, hj, e⟩ := h.2 y hydb hp
    have hji : j ≤ i := by
      rw [e] at hle
      have := (logKey_lt i j hi hj).not.mp (by rw [hle]; simp)
      omega
    simp only [inRange, e, hasPrefix_logKey, decode_logKey j hj, Bool.true_and,
      decide_eq_true_eq]
    omega

/-- What `DeleteRange` does on contents that satisfy the invariant. -/
theorem DeleteRange_spec (eng : Engine) (db : DB) (h : Inv db) (min max : Nat)
    (hmin : min < u64) :
    (∃ r, DeleteRange eng db min max = some r) ∧
    (∀ db1, DeleteRange eng db min max = some (db1, none) →
      ∀ k, db1.get k =
        if k ∈ ((seek db false (logKey min)).takeWhile (inRange max)).map Prod.fst then none
        else db.get k) ∧
    ((∀ i, i < u64 → min ≤ i → i ≤ max → stored db i = false) →
      DeleteRange eng db min max = some (db, none)) := by
  have hL : ∀ x ∈ seek db false (logKey min), hasPrefix x.1 dbLogs = true →
      ∃ i, i < u64 ∧ x.1 = logKey i := by
    intro x hx
    simp only [seek, Bool.false_eq_true, if_false, List.mem_filter] at hx
    exact h.2 x hx.1
  obtain ⟨r, h1, h2, h3⟩ := deleteLoop_spec eng max _ [] hL
  refine ⟨?_, ?_, ?_⟩
  · unfold DeleteRange
    rw [h1]
    cases r with
    | error e => exact ⟨_, rfl⟩
    | ok p => exact ⟨_, rfl⟩
  · intro db1 hd k
    unfold DeleteRange at hd
    rw [h1] at hd
    cases r with
    | error e =>
      simp only [Option.some.injEq, Prod.mk.injEq] at hd
      exact absurd hd.2 (by simp)
    | ok p =>
      simp only [Option.some.injEq] at hd
      have e := commit_ok eng db db1 p hd
      rw [e, h2 p rfl, List.nil_append]
      have := get_applyWrites_dels
        (((seek db false (logKey min)).takeWhile (inRange max)).map Prod.fst) db k
      rw [List.map_map] at this
      exact this
  · intro hn
    have hnil : (seek db false (logKey min)).takeWhile (inRange max) = [] := by
      rw [List.eq_nil_iff_forall_not_mem]
      intro x hx
      have hP := List.mem_takeWhile_imp hx
      have hxL := (List.takeWhile_sublist (inRange max)).subset hx
      have hp : hasPrefix x.1 dbLogs = true := by
        simp only [inRange, Bool.and_eq_true] at hP
        exact hP.1
      obtain ⟨i, hi, e⟩ := hL x hxL hp
      have hm : logKey i ∈
          ((seek db false (logKey min)).takeWhile (inRange max)).map Prod.fst :=
        List.mem_map.mpr ⟨x, hx, e⟩
      obtain ⟨a, b, c⟩ := (mem_deleted_iff db h min max i hmin hi).mp hm
      rw [hn i hi b c] at a
      exact absurd a (by simp)
    have hr := h3 hnil
    unfold DeleteRange
    rw [h1, hr]
    simp [commit]

/-! ## What range deletion removes -/

/-- C2: in every state reached from the empty store, `DeleteRange(min, max)`
returns; when it returns nil, `GetLog(i)` is the log-not-found error for every
index from `min` to `max` and is what it was before for every index below `min` or
above `max`; and when no stored index lies from `min` to `max`, in particular
when `min > max`, it returns nil and leaves the contents as they were. -/
theorem DeleteRange_removes_exactly (eng : Engine) (c : Codec) (ops : List Op)
    (min max : Nat) (hmin : min < u64) :
    (∃ r, DeleteRange eng (run eng c [] ops) min max = some r) ∧
    (∀ db1, DeleteRange eng (run eng c [] ops) min max = some (db1, none) →
      (∀ i, i < u64 → min ≤ i → i ≤ max → GetLog c db1 i = .error Err.raftErrLogNotFound) ∧
      (∀ i, i < u64 → i < min ∨ max < i → GetLog c db1 i = GetLog c (run eng c [] ops) i)) ∧
    ((∀ i, i < u64 → min ≤ i → i ≤ max → stored (run eng c [] ops) i = false) →
      DeleteRange eng (run eng c [] ops) min max = some (run eng c [] ops, none)) ∧
    (max < min →
      DeleteRange eng (run eng c [] ops) min max = some (run eng c [] ops, none)) := by
  have hinv := inv_run eng c ops [] inv_nil
  obtain ⟨h1, h2, h3⟩ := DeleteRange_spec eng _ hinv min max hmin
  refine ⟨h1, ?_, h3, fun hlt => h3 (fun i _ ha hb => absurd (Nat.le_trans ha hb) (by omega))⟩
  intro db1 hd
  have hget := h2 db1 hd
  constructor
  · intro i hi ha hb
    apply GetLog_none
    rw [hget]
    by_cases hm : logKey i ∈
        ((seek (run eng c [] ops) false (logKey min)).takeWhile (inRange max)).map Prod.fst
    · rw [if_pos hm]
    · rw [if_neg hm]
      have hns : ¬ stored (run eng c [] ops) i = true := fun hs =>
        hm ((mem_deleted_iff _ hinv min max i hmin hi).mpr ⟨hs, ha, hb⟩)
      unfold stored at hns
      cases hg : (run eng c [] ops).get (logKey i) with
      | none => rfl
      | some v => rw [hg] at hns; exact absurd rfl hns
  · intro i hi hout
    apply GetLog_congr
    rw [hget]
    have hm : ¬ logKey i ∈
        ((seek (run eng c [] ops) false (logKey min)).takeWhile (inRange max)).map Prod.fst := by
      intro hm
      obtain ⟨_, a, b⟩ := (mem_deleted_iff _ hinv min max i hmin hi).mp hm
      omega
    rw [if_neg hm]

/-- The witness of C2: with entries stored at indices 5, 6 and 7, `DeleteRange(6, 6)`
returns nil, after which `GetLog(6)` is the log-not-found error while `GetLog(5)`
and `GetLog(7)` still return their entries. -/
theorem DeleteRange_removes_exactly_witness :
    ∃ db1, DeleteRange okEngine (run okEngine sampleCodec []
        [Op.storeLogs [sampleLog 5, sampleLog 6, sampleLog 7]]) 6 6 = some (db1, none) ∧
      GetLog sampleCodec db1 6 = .error Err.raftErrLogNotFound ∧
      GetLog sampleCodec db1 5 = .ok (sampleLog 5) ∧
      GetLog sampleCodec db1 7 = .ok (sampleLog 7) := by
  have T := DeleteRange_removes_exactly okEngine sampleCodec
    [Op.storeLogs [sampleLog 5, sampleLog 6, sampleLog 7]] 6 6 (by decide)
  obtain ⟨r, hr⟩ := T.1
  obtain ⟨db1, e⟩ := r
  have he : e = none := by
    have : (DeleteRange okEngine (run okEngine sampleCodec []
        [Op.storeLogs [sampleLog 5, sampleLog 6, sampleLog 7]]) 6 6).map Prod.snd =
        some none := by decide
    rw [hr] at this
    simpa using this
  subst he
  obtain ⟨a, b⟩ := T.2.1 db1 hr
  refine ⟨db1, hr, a 6 (by decide) (by decide) (by decide), ?_, ?_⟩
  · rw [b 5 (by decide) (by decide)]; rfl
  · rw [b 7 (by decide) (by decide)]; rfl

/-! ## Atomic appends -/

theorem stageLogs_append_error (eng : Engine) (c : Codec) (pre post : List Log) (e : Log)
    (pend0 pend : List Write) (err : Err) (hpre : stageLogs eng c pre pend0 = .ok pend)
    (hfail : c.encodeMsgPack e = .error err ∨
      ∃ v, c.encodeMsgPack e = .ok v ∧ eng.setErr pend (logKey e.Index) v = some err) :
    stageLogs eng c (pre ++ e :: post) pend0 = .error err := by
  induction pre generalizing pend0 with
  | nil =>
    simp only [stageLogs, Except.ok.injEq] at hpre
    subst hpre
    rcases hfail with h | ⟨v, h1, h2⟩
    · simp [stageLogs, h]
    · simp [stageLogs, h1, h2]
  | cons l rest ih =>
    simp only [stageLogs] at hpre
    simp only [List.cons_append, stageLogs]
    cases he : c.encodeMsgPack l with
    | error e1 => rw [he] at hpre; simp at hpre
    | ok v =>
      rw [he] at hpre
      simp only at hpre ⊢
      cases hs : eng.setErr pend0 (logKey l.Index) v with
      | some e1 => rw [hs] at hpre; simp at hpre
      | none =>
        rw [hs] at hpre
        simp only at hpre ⊢
        exact ih _ hpre

theorem stageLogs_encode_error (eng : Engine) (c : Codec) (logs : List Log)
    (pend : List Write) (h : ∃ e ∈ logs, ∃ err, c.encodeMsgPack e = .error err) :
    ∃ err, stageLogs eng c logs pend = .error err := by
  induction logs generalizing pend with
  | nil => obtain ⟨e, he, _⟩ := h; simp at he
  | cons l rest ih =>
    simp only [stageLogs]
    cases he : c.encodeMsgPack l with
    | error e1 => exact ⟨e1, rfl⟩
    | ok v =>
      simp only
      cases hs : eng.setErr pend (logKey l.Index) v with
      | some e1 => exact ⟨e1, rfl⟩
      | none =>
        simp only
        apply ih
        obtain ⟨e, hmem, err, herr⟩ := h
        rcases List.mem_cons.mp hmem with e1 | e1
        · subst e1; rw [he] at herr; simp at herr
        · exact ⟨e, e1, err, herr⟩

theorem forall₂_split (c : Codec) (pre post : List Log) (e : Log) (ws : List Write)
    (h : List.Forall₂ (fun l w => ∃ v, c.encodeMsgPack l = .ok v ∧ w = (logKey l.Index, some v))
      (pre ++ e :: post) ws) :
    ∃ ws1 ws2 v, ws = ws1 ++ (logKey e.Index, some v) :: ws2 ∧ c.encodeMsgPack e = .ok v ∧
      ∀ w ∈ ws2, ∃ l ∈ post, ∃ v1, c.encodeMsgPack l = .ok v1 ∧ w = (logKey l.Index, some v1) := by
  induction pre generalizing ws with
  | nil =>
    simp only [List.nil_append] at h
    cases h with
    | cons hx hrest =>
      obtain ⟨v, h1, h2⟩ := hx
      exact ⟨[], _, v, by simp [h2], h1, forall₂_writes_mem c post _ hrest⟩
  | cons l rest ih =>
    simp only [List.cons_append] at h
    cases h with
    | cons hx hrest =>
      rename_i b l2
      obtain ⟨ws1, ws2, v, h1, h2, h3⟩ := ih _ hrest
      exact ⟨b :: ws1, ws2, v, by rw [h1]; rfl, h2, h3⟩

theorem exists_last_with_key (k : Bytes) (logs : List Log)
    (h : ∃ y ∈ logs, logKey y.Index = k) :
    ∃ pre e1 post, logs = pre ++ e1 :: post ∧ logKey e1.Index = k ∧
      ∀ e2 ∈ post, logKey e2.Index ≠ k := by
  induction logs with
  | nil => obtain ⟨y, hy, _⟩ := h; simp at hy
  | cons x xs ih =>
    by_cases hex : ∃ y ∈ xs, logKey y.Index = k
    · obtain ⟨pre, e1, post, a, b, d⟩ := ih hex
      exact ⟨x :: pre, e1, post, by rw [a]; rfl, b, d⟩
    · obtain ⟨y, hy, hk⟩ := h
      rcases List.mem_cons.mp hy with e | e
      · subst e
        exact ⟨[], y, xs, rfl, hk, fun e2 h2 hk2 => hex ⟨e2, h2, hk2⟩⟩
      · exact absurd ⟨y, e, hk⟩ hex

/-- Every error return of `StoreLogs` leaves the contents as they were. -/
theorem StoreLogs_err_unchanged (eng : Engine) (c : Codec) (db db1 : DB) (logs : List Log)
    (err : Err) (h : StoreLogs eng c db logs = (db1, some err)) : db1 = db := by
  unfold StoreLogs at h
  split at h
  · exact (congrArg Prod.fst h).symm
  · exact commit_err eng db db1 _ err h

/-- After a nil return of `StoreLogs`, an entry with no later entry of the batch
under the same key is stored with its own encoding. -/
theorem StoreLogs_ok_get (eng : Engine) (c : Codec) (db db1 : DB) (logs : List Log)
    (h : StoreLogs eng c db logs = (db1, none)) (pre : List Log) (e : Log) (post : List Log)
    (hl : logs = pre ++ e :: post) (hpost : ∀ e1 ∈ post, logKey e1.Index ≠ logKey e.Index) :
    ∃ v, c.encodeMsgPack e = .ok v ∧ db1.get (logKey e.Index) = some v := by
  unfold StoreLogs at h
  cases hs : stageLogs eng c logs [] with
  | error e1 => rw [hs] at h; simp at h
  | ok pend =>
    rw [hs] at h
    simp only at h
    have hdb := commit_ok eng db db1 pend h
    obtain ⟨ws, h1, h2⟩ := stageLogs_ok eng c logs [] pend hs
    rw [List.nil_append] at h1
    subst h1
    rw [hl] at h2
    obtain ⟨ws1, ws2, v, e1, e2, e3⟩ := forall₂_split c pre post e pend h2
    refine ⟨v, e2, ?_⟩
    rw [hdb, e1, applyWrites_append, applyWrites_cons, get_applyWrites_other]
    · simp only [get_put, if_true]
    · intro w hw
      obtain ⟨l, hl1, v1, _, hw1⟩ := e3 w hw
      rw [hw1]
      exact hpost l hl1

/-- After a nil return of `StoreLogs`, the index of every entry of the batch is
stored. -/
theorem StoreLogs_ok_stored (eng : Engine) (c : Codec) (db db1 : DB) (logs : List Log)
    (h : StoreLogs eng c db logs = (db1, none)) (e : Log) (he : e ∈ logs) :
    stored db1 e.Index = true := by
  obtain ⟨pre, e1, post, a, b, d⟩ := exists_last_with_key (logKey e.Index) logs ⟨e, he, rfl⟩
  obtain ⟨v, _, hv⟩ := StoreLogs_ok_get eng c db db1 logs h pre e1 post a
    (fun e2 h2 => by rw [b]; exact d e2 h2)
  unfold stored
  rw [← b, hv]
  rfl

/-- C3: `StoreLogs` is atomic.  Every error return leaves the contents as they
were; when the entries before `e` are staged and encoding `e` fails, or writing
it is refused, that error is returned; when the encoding of any entry fails an
error is returned; and after a nil return every entry of the batch is stored:
an entry with no later entry of the batch under the same key is stored with
its own encoding. -/
theorem StoreLogs_atomic (eng : Engine) (c : Codec) (db : DB) (logs : List Log) :
    (∀ db1 err, StoreLogs eng c db logs = (db1, some err) → db1 = db) ∧
    (∀ pre e post pend err, logs = pre ++ e :: post → stageLogs eng c pre [] = .ok pend →
      (c.encodeMsgPack e = .error err ∨
        ∃ v, c.encodeMsgPack e = .ok v ∧ eng.setErr pend (logKey e.Index) v = some err) →
      StoreLogs eng c db logs = (db, some err)) ∧
    ((∃ e ∈ logs, ∃ err, c.encodeMsgPack e = .error err) →
      ∃ err, StoreLogs eng c db logs = (db, some err)) ∧
    (∀ db1, StoreLogs eng c db logs = (db1, none) →
      (∀ e ∈ logs, stored db1 e.Index = true) ∧
      ∀ pre e post, logs = pre ++ e :: post →
        (∀ e1 ∈ post, logKey e1.Index ≠ logKey e.Index) →
        ∃ v, c.encodeMsgPack e = .ok v ∧ db1.get (logKey e.Index) = some v) := by
  refine ⟨fun db1 err h => StoreLogs_err_unchanged eng c db db1 logs err h, ?_, ?_, ?_⟩
  · intro pre e post pend err hl hpre hfail
    unfold StoreLogs
    rw [hl, stageLogs_append_error eng c pre post e [] pend err hpre hfail]
  · intro h
    obtain ⟨err, he⟩ := stageLogs_encode_error eng c logs [] h
    exact ⟨err, by unfold StoreLogs; rw [he]⟩
  · intro db1 h
    exact ⟨fun e he => StoreLogs_ok_stored eng c db db1 logs h e he,
      fun pre e post hl hpost => StoreLogs_ok_get eng c db db1 logs h pre e post hl hpost⟩

/-! ## Round trip of an entry; the key encoding -/

/-- The witness of C3: a batch of three entries whose last entry fails to encode
is refused with that error and none of its entries is stored. -/
theorem StoreLogs_atomic_witness :
    StoreLogs okEngine pickyCodec [] [sampleLog 5, sampleLog 6,
        { Index := 7, Term := 1, Kind := 9, Data := [] }] = ([], some (Err.other 2)) ∧
      GetLog pickyCodec [] 5 = .error Err.raftErrLogNotFound ∧
      FirstIndex [] = some (0, none) ∧ LastIndex [] = some (0, none) := by
  refine ⟨?_, rfl, rfl, rfl⟩
  exact (StoreLogs_atomic okEngine pickyCodec [] [sampleLog 5, sampleLog 6,
    { Index := 7, Term := 1, Kind := 9, Data := [] }]).2.1 [sampleLog 5, sampleLog 6]
    { Index := 7, Term := 1, Kind := 9, Data := [] } [] _ (Err.other 2) rfl rfl (Or.inl rfl)

/-- C4: after `StoreLog(e)` returns nil, `GetLog` at the index of `e` returns `e`
with no error, whatever was stored there before, provided the codec decodes
the encoding of `e` back to `e`. -/
theorem StoreLog_GetLog_roundtrip (eng : Engine) (c : Codec) (db db1 : DB) (e : Log)
    (hcodec : ∀ v, c.encodeMsgPack e = .ok v → c.decodeMsgPack v = .ok e)
    (h : StoreLog eng c db e = (db1, none)) : GetLog c db1 e.Index = .ok e := by
  obtain ⟨v, hv, hg⟩ := StoreLogs_ok_get eng c db db1 [e] h [] e [] rfl
    (fun _ hm => by simp at hm)
  rw [GetLog_some c db1 e.Index v hg]
  exact hcodec v hv

/-- The witness of C4: with entries at 5, 6 and 7 stored, storing another entry at
index 6 succeeds and `GetLog(6)` then returns the new entry. -/
theorem StoreLog_GetLog_roundtrip_witness :
    (StoreLog okEngine sampleCodec (run okEngine sampleCodec []
        [Op.storeLogs [sampleLog 5, sampleLog 6, sampleLog 7]])
        { Index := 6, Term := 2, Kind := 1, Data := [1, 2, 3] }).2 = none ∧
      GetLog sampleCodec (StoreLog okEngine sampleCodec (run okEngine sampleCodec []
        [Op.storeLogs [sampleLog 5, sampleLog 6, sampleLog 7]])
        { Index := 6, Term := 2, Kind := 1, Data := [1, 2, 3] }).1 6 =
        .ok { Index := 6, Term := 2, Kind := 1, Data := [1, 2, 3] } :=
  ⟨rfl, StoreLog_GetLog_roundtrip okEngine sampleCodec _ _
    { Index := 6, Term := 2, Kind := 1, Data := [1, 2, 3] }
    (fun v hv => by cases hv; rfl) rfl⟩

/-- C5: the log key encoding is order-preserving and injective on 64-bit
indices: `a < b` exactly when the key of `a` is byte-lexicographically smaller
than the key of `b`, and equal keys come from equal indices. -/
theorem logKey_order_preserving_injective (a b : Nat) (ha : a < u64) (hb : b < u64) :
    (a < b ↔ bytesLt (dbLogs ++ uint64ToBytes a) (dbLogs ++ uint64ToBytes b) = true) ∧
    (dbLogs ++ uint64ToBytes a = dbLogs ++ uint64ToBytes b → a = b) :=
  ⟨(logKey_lt a b ha hb).symm, logKey_inj a b ha hb⟩

/-- The witness of C5: the keys of 255 and 256 compare as the numbers do. -/
theorem logKey_order_preserving_injective_witness :
    (255 < 256 ↔ bytesLt (dbLogs ++ uint64ToBytes 255) (dbLogs ++ uint64ToBytes 256) = true) ∧
    (dbLogs ++ uint64ToBytes 255 = dbLogs ++ uint64ToBytes 256 → 255 = 256) :=
  logKey_order_preserving_injective 255 256 (by decide) (by decide)

/-! ## The two namespaces; the stable store -/

theorem confKey_inj (k k1 : Bytes) (h : confKey k = confKey k1) : k = k1 :=
  List.append_cancel_left h

theorem ne_confKey_of_hasPrefix (key k : Bytes) (h : hasPrefix key dbLogs = true) :
    key ≠ confKey k := by
  intro e
  rw [e, hasPrefix_confKey] at h
  exact absurd h (by simp)

/-- What a `Set` that returns nil leaves behind. -/
theorem Set_ok (eng : Engine) (db db1 : DB) (k v : Bytes) (h : Set eng db k v = (db1, none)) :
    db1 = db.put (confKey k) v := by
  unfold Set at h
  split at h
  · have := congrArg Prod.snd h
    simp at this
  · exact commit_ok eng db db1 _ h

theorem Set_fst (eng : Engine) (db : DB) (k v : Bytes) :
    (Set eng db k v).1 = db ∨
      ((Set eng db k v).1 = db.put (confKey k) v ∧ (Set eng db k v).2 = none) := by
  cases hs : (Set eng db k v) with
  | mk db1 e =>
    cases e with
    | none => exact Or.inr ⟨Set_ok eng db db1 k v hs, rfl⟩
    | some err =>
      left
      unfold Set at hs
      split at hs
      · exact (congrArg Prod.fst hs).symm
      · exact commit_err eng db db1 _ err hs

/-- No call of `StoreLogs` changes what is stored under a config key. -/
theorem StoreLogs_get_confKey (eng : Engine) (c : Codec) (db : DB) (logs : List Log)
    (k : Bytes) : (StoreLogs eng c db logs).1.get (confKey k) = db.get (confKey k) := by
  unfold StoreLogs
  cases hs : stageLogs eng c logs [] with
  | error e => rfl
  | ok pend =>
    simp only
    rcases commit_fst eng db pend with e | e
    · rw [e]
    · rw [e]
      apply get_applyWrites_other
      intro w hw
      obtain ⟨ws, h1, h2⟩ := stageLogs_ok eng c logs [] pend hs
      rw [h1, List.nil_append] at hw
      obtain ⟨l, _, v, _, hv⟩ := forall₂_writes_mem c logs ws h2 w hw
      rw [hv]
      exact logKey_ne_confKey _ _

/-- No call of `DeleteRange` changes what is stored under a config key. -/
theorem DeleteRange_get_confKey (eng : Engine) (db : DB) (min max : Nat)
    (r : DB × Option Err) (h : DeleteRange eng db min max = some r) (k : Bytes) :
    r.1.get (confKey k) = db.get (confKey k) := by
  unfold DeleteRange at h
  split at h
  · simp at h
  · simp only [Option.some.injEq] at h
    subst h; rfl
  · rename_i pend hp
    simp only [Option.some.injEq] at h
    subst h
    rcases commit_fst eng db pend with e | e
    · rw [e]
    · rw [e]
      apply get_applyWrites_other
      intro w hw
      rcases deleteLoop_writes eng max _ [] pend hp w hw with e1 | e1
      · simp at e1
      · exact ne_confKey_of_hasPrefix _ _ e1.2

/-- C6: the two namespaces do not interfere.  In every state reached from the
empty store, a `Set` that returns nil, for any key and value, leaves the results
of `FirstIndex`, `LastIndex` and every `GetLog` as they were; and a `StoreLogs` or a
`DeleteRange` that returns nil, for any batch and any bounds, leaves the result
of every `Get` as it was. -/
theorem namespaces_do_not_interfere (eng : Engine) (c : Codec) (ops : List Op) :
    (∀ k v db1, Set eng (run eng c [] ops) k v = (db1, none) →
      FirstIndex db1 = FirstIndex (run eng c [] ops) ∧
      LastIndex db1 = LastIndex (run eng c [] ops) ∧
      ∀ i, GetLog c db1 i = GetLog c (run eng c [] ops) i) ∧
    (∀ logs db1, StoreLogs eng c (run eng c [] ops) logs = (db1, none) →
      ∀ k, Get db1 k = Get (run eng c [] ops) k) ∧
    (∀ min max db1, DeleteRange eng (run eng c [] ops) min max = some (db1, none) →
      ∀ k, Get db1 k = Get (run eng c [] ops) k) := by
  have hinv := inv_run eng c ops [] inv_nil
  refine ⟨?_, ?_, ?_⟩
  · intro k v db1 h
    have hdb := Set_ok eng _ db1 k v h
    have hinv1 : Inv db1 := by
      have := inv_Set eng _ k v hinv
      rw [h] at this
      exact this
    have hget : ∀ i, db1.get (logKey i) = (run eng c [] ops).get (logKey i) := by
      intro i
      rw [hdb, get_put, if_neg (fun e => logKey_ne_confKey i k e.symm)]
    have hst : ∀ i, stored db1 i = stored (run eng c [] ops) i := by
      intro i; unfold stored; rw [hget]
    exact ⟨firstIndex_congr _ _ hinv hinv1 hst, lastIndex_congr _ _ hinv hinv1 hst,
      fun i => GetLog_congr c _ _ i (hget i)⟩
  · intro logs db1 h k
    apply Get_congr
    have := StoreLogs_get_confKey eng c (run eng c [] ops) logs k
    rw [h] at this
    exact this
  · intro min max db1 h k
    apply Get_congr
    exact DeleteRange_get_confKey eng _ min max _ h k

/-- The witness of C6: with entries at 5, 6 and 7 stored, setting the config key
made of the eight bytes of index 6 leaves the first index, the last index and
`GetLog(6)` as they were, and deleting every index up to the largest `uint64`
leaves that config key readable. -/
theorem namespaces_do_not_interfere_witness :
    FirstIndex (run okEngine sampleCodec [] [Op.storeLogs [sampleLog 5, sampleLog 6,
        sampleLog 7], Op.set (uint64ToBytes 6) [9]]) = some (5, none) ∧
      LastIndex (run okEngine sampleCodec [] [Op.storeLogs [sampleLog 5, sampleLog 6,
        sampleLog 7], Op.set (uint64ToBytes 6) [9]]) = some (7, none) ∧
      GetLog sampleCodec (run okEngine sampleCodec [] [Op.storeLogs [sampleLog 5, sampleLog 6,
        sampleLog 7], Op.set (uint64ToBytes 6) [9]]) 6 = .ok (sampleLog 6) ∧
      Get (run okEngine sampleCodec [] [Op.storeLogs [sampleLog 5, sampleLog 6,
        sampleLog 7], Op.set (uint64ToBytes 6) [9],
        Op.deleteRange 0 18446744073709551615]) (uint64ToBytes 6) = .ok [9] ∧
      FirstIndex (run okEngine sampleCodec [] [Op.storeLogs [sampleLog 5, sampleLog 6,
        sampleLog 7], Op.set (uint64ToBytes 6) [9],
        Op.deleteRange 0 18446744073709551615]) = some (0, none) :=
  ⟨by decide, by decide, rfl, rfl, by decide⟩

/-- C7: the not-found sentinel of the stable store differs from the one of the
log store; in a state reached from the empty store in which no `Set` on `k` has
returned nil, `Get(k)` returns that sentinel; and after `Set(k, v)` returns nil,
for any value `v`, the empty one included, `Get(k)` returns `v` with no error. -/
theorem Get_never_set_vs_set :
    Err.ErrKeyNotFound ≠ Err.raftErrLogNotFound ∧
    (∀ (eng : Engine) (c : Codec) (ops : List Op) (k : Bytes),
      everSet eng c k [] ops = false → Get (run eng c [] ops) k = .error Err.ErrKeyNotFound) ∧
    (∀ (eng : Engine) (db db1 : DB) (k v : Bytes),
      Set eng db k v = (db1, none) → Get db1 k = .ok v) ∧
    (∀ (eng : Engine) (db db1 : DB) (k : Bytes),
      Set eng db k [] = (db1, none) → Get db1 k = .ok [] ∧
        Get db1 k ≠ .error Err.ErrKeyNotFound) := by
  have hset : ∀ (eng : Engine) (db db1 : DB) (k v : Bytes),
      Set eng db k v = (db1, none) → Get db1 k = .ok v := by
    intro eng db db1 k v h
    apply Get_some
    rw [Set_ok eng db db1 k v h, get_put, if_pos rfl]
  refine ⟨by decide, ?_, hset, fun eng db db1 k h => ⟨hset eng db db1 k [] h, ?_⟩⟩
  · intro eng c ops k hnever
    apply Get_none
    have key : ∀ (ops : List Op) (db : DB), db.get (confKey k) = none →
        everSet eng c k db ops = false → (run eng c db ops).get (confKey k) = none := by
      intro ops
      induction ops with
      | nil => intro db h _; exact h
      | cons op rest ih =>
        intro db h hn
        simp only [everSet, Bool.or_eq_false_iff] at hn
        apply ih _ _ hn.2
        cases op with
        | storeLogs logs =>
          simp only [step]
          rw [StoreLogs_get_confKey]; exact h
        | deleteRange min max =>
          simp only [step]
          cases hd : DeleteRange eng db min max with
          | none => exact h
          | some r =>
            simp only
            rw [DeleteRange_get_confKey eng db min max r hd]; exact h
        | set k1 v =>
          simp only [step]
          rcases Set_fst eng db k1 v with e | ⟨e1, e2⟩
          · rw [e]; exact h
          · rw [e1, get_put]
            have hne : k1 ≠ k := by
              intro e
              have := hn.1
              rw [e] at e2
              simp [e, e2] at this
            rw [if_neg (fun e => hne (confKey_inj _ _ e))]
            exact h
    exact key ops [] rfl hnever
  · rw [hset eng db db1 k [] h]
    intro e
    cases e

/-- The witness of C7: a key that was never set is reported with the sentinel,
and a key set to the empty value is read back as the empty value. -/
theorem Get_never_set_vs_set_witness :
    Get (run okEngine sampleCodec [] [Op.storeLogs [sampleLog 5], Op.set [1] [7]]) [2] =
        .error Err.ErrKeyNotFound ∧
      Get (Set okEngine [] [1] []).1 [1] = .ok [] :=
  ⟨Get_never_set_vs_set.2.1 okEngine sampleCodec
      [Op.storeLogs [sampleLog 5], Op.set [1] [7]] [2] (by decide),
    Get_never_set_vs_set.2.2.1 okEngine [] _ [1] [] rfl⟩

/-! ## The unsigned-64 wrappers; opening a store -/

theorem bytesToUint64_length (b : Bytes) (n : Nat) (h : bytesToUint64 b = some n) :
    b.length = 8 := by
  unfold bytesToUint64 at h
  split at h
  · rfl
  · simp at h

/-- C8: after `SetUint64(k, n)` returns nil, `GetUint64(k)` returns `n` with no
error and `Get(k)` returns the eight big-endian bytes of `n`. -/
theorem SetUint64_GetUint64_roundtrip (eng : Engine) (db db1 : DB) (k : Bytes) (n : Nat)
    (hn : n < u64) (h : SetUint64 eng db k n = (db1, none)) :
    GetUint64 db1 k = some (.ok n) ∧
    Get db1 k = .ok [n / 72057594037927936 % 256, n / 281474976710656 % 256,
      n / 1099511627776 % 256, n / 4294967296 % 256, n / 16777216 % 256, n / 65536 % 256,
      n / 256 % 256, n % 256] := by
  have hg : Get db1 k = .ok (uint64ToBytes n) := by
    apply Get_some
    rw [Set_ok eng db db1 k _ h, get_put, if_pos rfl]
  refine ⟨?_, hg⟩
  unfold GetUint64
  rw [hg]
  simp only [bytesToUint64_uint64ToBytes n hn, Option.map_some']

/-- The witness of C8: after `SetUint64("term", 42)` on the empty store,
`GetUint64("term")` is 42 and `Get("term")` is `00 00 00 00 00 00 00 2A`. -/
theorem SetUint64_GetUint64_roundtrip_witness :
    GetUint64 (SetUint64 okEngine [] [116, 101, 114, 109] 42).1 [116, 101, 114, 109] =
        some (.ok 42) ∧
      Get (SetUint64 okEngine [] [116, 101, 114, 109] 42).1 [116, 101, 114, 109] =
        .ok [0, 0, 0, 0, 0, 0, 0, 42] :=
  SetUint64_GetUint64_roundtrip okEngine [] _ [116, 101, 114, 109] 42 (by decide) rfl

/-- C9: when the engine opens, `Dir` is created and creating `ValueDir` fails,
`New` returns a store and a nil error. -/
theorem New_ignores_ValueDir_failure :
    valueDirFails.mkdirAll "/data/values" = some (Err.other 13) ∧
      New valueDirFails { Dir := "/data/keys", ValueDir := "/data/values" } =
        (some { conn := some [], path := "/data/keys" }, none) := by
  constructor
  · decide
  · decide

/-- C10, as the spec states it, fails: after `Set` stores a value of 3 bytes
under a key, `Get` returns that value and `GetUint64` on the key returns no error
(and no number). -/
theorem GetUint64_three_bytes_no_decode_error :
    (Set okEngine [] [107] [1, 2, 3]).2 = none ∧
      Get (Set okEngine [] [107] [1, 2, 3]).1 [107] = .ok [1, 2, 3] ∧
      ¬ ∃ err, GetUint64 (Set okEngine [] [107] [1, 2, 3]).1 [107] = some (.error err) := by
  refine ⟨rfl, rfl, ?_⟩
  rintro ⟨err, h⟩
  have e : GetUint64 (Set okEngine [] [107] [1, 2, 3]).1 [107] = none := rfl
  rw [e] at h
  exact absurd h (by simp)

/-- C10, amended: `GetUint64` returns an error exactly when `Get` returns it; a
stored value whose length is not 8 bytes makes it return neither an error nor
a number; and it returns a number with a nil error exactly when the stored
value is 8 bytes long, the number being their big-endian value. -/
theorem GetUint64_error_only_from_Get (db : DB) (key : Bytes) :
    (∀ err, GetUint64 db key = some (.error err) ↔ Get db key = .error err) ∧
    (∀ val, Get db key = .ok val → val.length ≠ 8 → GetUint64 db key = none) ∧
    (∀ n, GetUint64 db key = some (.ok n) ↔
      ∃ val, Get db key = .ok val ∧ val.length = 8 ∧ bytesToUint64 val = some n) := by
  unfold GetUint64
  cases hg : Get db key with
  | error e =>
    refine ⟨fun err => ?_, fun val h => by simp at h, fun n => ?_⟩
    · simp
    · simp
  | ok val =>
    refine ⟨fun err => ?_, fun val1 h hl => ?_, fun n => ?_⟩
    · simp only
      cases hb : bytesToUint64 val <;> simp
    · simp only [Except.ok.injEq] at h
      subst h
      cases hb : bytesToUint64 val with
      | none => simp [hb]
      | some n => exact absurd (bytesToUint64_length val n hb) hl
    · simp only
      cases hb : bytesToUint64 val with
      | none => simp [hb]
      | some m =>
        simp only [Option.map_some', Option.some.injEq, Except.ok.injEq]
        constructor
        · intro e; exact ⟨val, rfl, bytesToUint64_length val m hb, by rw [hb, e]⟩
        · rintro ⟨v1, h1, _, h3⟩
          subst h1
          rw [hb] at h3
          exact Option.some.inj h3

end RaftBadger
